import Mathlib

/-!
Verification of the LWR-PRF client (`lwr-prf-client.py`).

The development embeds the client shallowly:

* Bytes are natural numbers below 256, byte strings are lists of naturals.
* The SHAKE256 extendable-output function from Python's `hashlib` is external
  library code, so it enters the embedding as an explicit function parameter
  `shake : List Nat → Nat → List Nat` mapping the absorbed byte string and a
  requested output length to the output byte stream.  Incremental absorption
  (`hasher.update(x); hasher.update(ib)`) is modelled as absorbing the
  concatenation `x ++ ib`.
* The secret key `self.s` is a `List Nat` of binary values; the numpy `uint64`
  dot product wraps modulo `2 ^ 64`, which the embedding reproduces exactly.
* Python integer `%` on possibly negative operands is `Int.emod`, and `//` on
  nonnegative operands is `Nat` division.
-/

namespace LWRPRF

/-- `int.to_bytes(k, 'little')`: the `k`-byte little-endian encoding of `v`
(faithful to Python for `v < 2 ^ (8 * k)`, where `to_bytes` does not raise). -/
def toLEBytes : Nat → Nat → List Nat
  | 0, _ => []
  | k + 1, v => v % 256 :: toLEBytes k (v / 256)

/-- `int.from_bytes(bs, 'little')`: read a list of bytes as a little-endian
unsigned integer. -/
def fromLEBytes : List Nat → Nat
  | [] => 0
  | b :: rest => b + 256 * fromLEBytes rest

/-- Multiplication of two `uint64` values, wrapping modulo `2 ^ 64`. -/
def u64mul (x y : Nat) : Nat := x * y % 2 ^ 64

/-- Addition of two `uint64` values, wrapping modulo `2 ^ 64`. -/
def u64add (x y : Nat) : Nat := (x + y) % 2 ^ 64

/-- `np.dot(a, s)` on `uint64` arrays: elementwise products and a left-to-right
accumulation, every intermediate wrapping modulo `2 ^ 64`. -/
def npDotU64 (a s : List Nat) : Nat :=
  (List.zipWith u64mul a s).foldl u64add 0

/-- `hash_to_vector` (`lwr-prf-client.py`, lines 96–124): absorb the input
bytes, then the 8-byte little-endian encoding of the slot index, draw
`n * 8` bytes from the XOF, and for each `i < n` read the byte slice
`digest[i*8:(i+1)*8]` as a little-endian `u64` and reduce it modulo `2 * N`. -/
def hash_to_vector (n N : Nat) (shake : List Nat → Nat → List Nat)
    (x : List Nat) (index : Nat) : List Nat :=
  let digest := shake (x ++ toLEBytes 8 index) (n * 8)
  (List.range n).map (fun i => fromLEBytes ((digest.drop (i * 8)).take 8) % (2 * N))

/-- `evaluate` (`lwr-prf-client.py`, lines 126–165): hash the input at the
default slot index 0, take the `uint64` inner product with the secret key,
reduce modulo `2N` for the sign bit and modulo `N` for the magnitude, round by
integer floor division, and apply the sign, reducing modulo `p` in both
branches. -/
def evaluate (n N p : Nat) (s : List Nat) (shake : List Nat → Nat → List Nat)
    (x : List Nat) : Int :=
  let a := hash_to_vector n N shake x 0
  let inner_product := npDotU64 a s
  let inner_mod_2N := inner_product % (2 * N)
  let msb : Nat := if inner_mod_2N ≥ N then 1 else 0
  let inner_mod_N := inner_product % N
  let rounded := p * inner_mod_N / N
  if msb = 1 then ((p : Int) - (rounded : Int)) % (p : Int)
  else (rounded : Int) % (p : Int)

/-- `evaluate_multiple` (`lwr-prf-client.py`, lines 167–197): for each slot
index `i < count`, run the same pipeline as `evaluate` on the hash vector for
slot `i`, collecting the outputs in index order. -/
def evaluate_multiple (n N p : Nat) (s : List Nat)
    (shake : List Nat → Nat → List Nat) (x : List Nat) (count : Nat) : List Int :=
  (List.range count).map (fun i =>
    let a := hash_to_vector n N shake x i
    let inner_product := npDotU64 a s
    let inner_mod_2N := inner_product % (2 * N)
    let msb : Nat := if inner_mod_2N ≥ N then 1 else 0
    let inner_mod_N := inner_product % N
    let rounded := p * inner_mod_N / N
    if msb = 1 then ((p : Int) - (rounded : Int)) % (p : Int)
    else (rounded : Int) % (p : Int))

/-- `encrypt_message` (`lwr-prf-client.py`, lines 199–216): generate the PRF
keystream of length `len(message)` from the nonce and add it to the message
elementwise modulo `p`; returns the `(nonce, ciphertext)` pair. -/
def encrypt_message (n N p : Nat) (s : List Nat)
    (shake : List Nat → Nat → List Nat) (message : List Int)
    (nonce : List Nat) : List Nat × List Int :=
  let prf_stream := evaluate_multiple n N p s shake nonce message.length
  (nonce, List.zipWith (fun m prf => (m + prf) % (p : Int)) message prf_stream)

/-- `decrypt_message` (`lwr-prf-client.py`, lines 218–239): regenerate the same
keystream of length `len(ciphertext)` and subtract it, adding `p` before the
reduction exactly as the source does. -/
def decrypt_message (n N p : Nat) (s : List Nat)
    (shake : List Nat → Nat → List Nat) (nonce : List Nat)
    (ciphertext : List Int) : List Int :=
  let prf_stream := evaluate_multiple n N p s shake nonce ciphertext.length
  List.zipWith (fun c prf => (c + (p : Int) - prf) % (p : Int)) ciphertext prf_stream

/-- The content of the persisted key file: the declared dimension `n_lwr` and
the stored coefficient list (JSON integers, hence `Int`). -/
structure KeyData where
  n_lwr : Nat
  secret_key : List Int

/-- The two failure modes of `_load_secret_key`. -/
inductive KeyError where
  | dimensionMismatch (expected got : Nat)
  | invalidKeyData
deriving DecidableEq

/-- `_load_secret_key` (`lwr-prf-client.py`, lines 74–94): first validate the
declared dimension against the configured `n`, then load the stored values and
validate that every one is exactly 0 or 1.  (The numpy `uint64` conversion is
value-preserving on binary data.) -/
def _load_secret_key (n : Nat) (kd : KeyData) : Except KeyError (List Int) :=
  if kd.n_lwr ≠ n then
    .error (.dimensionMismatch n kd.n_lwr)
  else if kd.secret_key.all (fun v => v = 0 || v = 1) then
    .ok kd.secret_key
  else
    .error .invalidKeyData

/-- Modelled from the spec: the five-step `evaluate_at` contract of §4.3,
applied to an already-computed inner product `ip`.  Steps: reduce modulo `2N`
and extract the sign bit, reduce modulo `N` separately, round by integer floor
division `floor(p * ip_mod_N / N)`, then negate modulo `p` when the sign bit is
set, reducing modulo `p` in both branches. -/
def evaluate_at_spec (N p : Nat) (ip : Nat) : Int :=
  let ip_mod_2N := ip % (2 * N)
  let msb : Nat := if N ≤ ip_mod_2N then 1 else 0
  let ip_mod_N := ip % N
  let rounded := p * ip_mod_N / N
  if msb = 1 then ((p : Int) - (rounded : Int)) % (p : Int)
  else (rounded : Int) % (p : Int)

/-- Split a byte stream into consecutive 8-byte chunks. -/
def chunks8 (l : List Nat) : List (List Nat) :=
  if h : l = [] then []
  else l.take 8 :: chunks8 (l.drop 8)
termination_by l.length
decreasing_by
  simp only [List.length_drop]
  exact Nat.sub_lt (List.length_pos.mpr h) (by norm_num)

/-- Modelled from the spec: the §4.2 hash-to-vector contract.  Absorb the
input bytes first and the 8-byte little-endian slot index second, draw `n * 8`
bytes from the XOF output stream, partition the stream into consecutive 8-byte
chunks, read each chunk as a little-endian unsigned integer, and reduce it
modulo `2N`. -/
def hash_to_vector_spec (n N : Nat) (shake : List Nat → Nat → List Nat)
    (x : List Nat) (index : Nat) : List Nat :=
  (chunks8 (shake (x ++ toLEBytes 8 index) (n * 8))).map
    (fun c => fromLEBytes c % (2 * N))

/-- A concrete stand-in XOF used only to instantiate witnesses: byte `j` of
the output is `(sum of absorbed bytes + j) mod 256`.  It returns exactly the
requested number of bytes, like any XOF. -/
def xofModel (b : List Nat) (k : Nat) : List Nat :=
  (List.range k).map (fun j => (b.sum + j) % 256)

/-! ### Helper lemmas -/

/-- Any Python-style `% p` result lies in `[0, p)` when `p > 0`. -/
lemma emod_p_range (p : Nat) (hp : 0 < p) (a : Int) :
    0 ≤ a % (p : Int) ∧ a % (p : Int) < p := by
  constructor
  · exact Int.emod_nonneg a (by exact_mod_cast hp.ne')
  · exact Int.emod_lt_of_pos a (by exact_mod_cast hp)

/-- A property holding of all `f`-images holds of every element of a
`zipWith f`. -/
lemma forall_mem_zipWith {α β γ : Type} (f : α → β → γ) (P : γ → Prop)
    (h : ∀ x y, P (f x y)) :
    ∀ (l₁ : List α) (l₂ : List β), ∀ z ∈ List.zipWith f l₁ l₂, P z := by
  intro l₁
  induction l₁ with
  | nil => intro l₂ z hz; simp at hz
  | cons x t ih =>
    intro l₂ z hz
    cases l₂ with
    | nil => simp at hz
    | cons y t₂ =>
      simp only [List.zipWith_cons_cons, List.mem_cons] at hz
      rcases hz with rfl | hz
      · exact h x y
      · exact ih t₂ z hz

/-- `evaluate_multiple` always returns exactly `count` outputs. -/
lemma evaluate_multiple_len (n N p : Nat) (s : List Nat)
    (shake : List Nat → Nat → List Nat) (x : List Nat) (count : Nat) :
    (evaluate_multiple n N p s shake x count).length = count := by
  simp [evaluate_multiple]

/-- Folding the wrapping `uint64` addition is addition modulo `2 ^ 64`. -/
lemma foldl_u64add (l : List Nat) :
    ∀ acc : Nat, l.foldl u64add (acc % 2 ^ 64) = (acc + l.sum) % 2 ^ 64 := by
  induction l with
  | nil => intro acc; simp
  | cons b t ih =>
    intro acc
    simp only [List.foldl_cons, List.sum_cons, u64add]
    rw [Nat.mod_add_mod, ih (acc + b), Nat.add_assoc]

/-- The sum of wrapped products agrees, modulo `2 ^ 64`, with the sum of the
exact products. -/
lemma sum_zipWith_u64mul (a : List Nat) :
    ∀ s : List Nat,
      (List.zipWith u64mul a s).sum % 2 ^ 64
        = (List.zipWith (fun x y => x * y) a s).sum % 2 ^ 64 := by
  induction a with
  | nil => intro s; simp
  | cons x t ih =>
    intro s
    cases s with
    | nil => simp
    | cons y t₂ =>
      simp only [List.zipWith_cons_cons, List.sum_cons, u64mul]
      exact Nat.ModEq.add (Nat.mod_modEq (x * y) (2 ^ 64)) (ih t₂)

/-- `npDotU64` is the exact inner product reduced once modulo `2 ^ 64`. -/
lemma npDotU64_eq_sum_mod (a s : List Nat) :
    npDotU64 a s = (List.zipWith (fun x y => x * y) a s).sum % 2 ^ 64 := by
  have h0 : (0 : Nat) = 0 % 2 ^ 64 := by simp
  rw [npDotU64, h0, foldl_u64add, Nat.zero_add, sum_zipWith_u64mul]

/-- The exact inner product of a `[0, 2N)`-valued vector with a binary vector
is at most `len * (2N - 1)`. -/
lemma sum_zipWith_mul_le (N : Nat) :
    ∀ (a s : List Nat), (∀ v ∈ a, v < 2 * N) → (∀ v ∈ s, v ≤ 1) →
      (List.zipWith (fun x y => x * y) a s).sum ≤ a.length * (2 * N - 1) := by
  intro a
  induction a with
  | nil => intro s _ _; simp
  | cons x t ih =>
    intro s ha hs
    cases s with
    | nil => simp
    | cons y t₂ =>
      simp only [List.zipWith_cons_cons, List.sum_cons, List.length_cons]
      have hx : x ≤ 2 * N - 1 :=
        Nat.le_sub_one_of_lt (ha x (List.mem_cons_self x t))
      have hy : y ≤ 1 := hs y (List.mem_cons_self y t₂)
      have hxy : x * y ≤ 2 * N - 1 :=
        le_trans (Nat.mul_le_mul hx hy) (by simp)
      have htail : (List.zipWith (fun x y => x * y) t t₂).sum
          ≤ t.length * (2 * N - 1) :=
        ih t₂ (fun v hv => ha v (List.mem_cons_of_mem _ hv))
          (fun v hv => hs v (List.mem_cons_of_mem _ hv))
      calc x * y + (List.zipWith (fun x y => x * y) t t₂).sum
          ≤ (2 * N - 1) + t.length * (2 * N - 1) := Nat.add_le_add hxy htail
        _ = (t.length + 1) * (2 * N - 1) := by ring

/-- `chunks8` of a stream of length `8 * n` is the list of the `n` slices
`digest[i*8:(i+1)*8]`. -/
lemma chunks8_eq_slices :
    ∀ (n : Nat) (digest : List Nat), digest.length = 8 * n →
      chunks8 digest = (List.range n).map (fun i => (digest.drop (i * 8)).take 8) := by
  intro n
  induction n with
  | zero =>
    intro digest hlen
    have : digest = [] := List.eq_nil_of_length_eq_zero (by simpa using hlen)
    subst this
    rw [chunks8]
    simp
  | succ m ih =>
    intro digest hlen
    have hne : digest ≠ [] := by
      intro h
      rw [h] at hlen
      simp at hlen
    rw [chunks8, dif_neg hne]
    have hlen' : (digest.drop 8).length = 8 * m := by
      simp [List.length_drop, hlen, Nat.mul_succ]
    rw [ih (digest.drop 8) hlen', List.range_succ_eq_map]
    simp only [List.map_cons, List.map_map]
    congr 1
    refine List.map_congr_left (fun a _ => ?_)
    have h8 : 8 + a * 8 = (a + 1) * 8 := by ring
    simp only [Function.comp_apply, List.drop_drop, h8]

/-- One transcipher element round-trips: adding a keystream element modulo `p`
and then subtracting it (with the `+p` normalization) returns the plaintext. -/
lemma round_trip_elem (p : Nat) (m k : Int)
    (h0 : 0 ≤ m) (h1 : m < p) :
    ((m + k) % (p : Int) + p - k) % (p : Int) = m := by
  have step1 : ((m + k) % (p : Int) + p - k) % (p : Int)
      = ((m + k) % (p : Int) + ((p : Int) - k)) % (p : Int) := by
    ring_nf
  have step2 : ((m + k) % (p : Int) + ((p : Int) - k)) % (p : Int)
      = ((m + k) + ((p : Int) - k)) % (p : Int) := by
    rw [Int.add_emod, Int.emod_emod_of_dvd _ dvd_rfl, ← Int.add_emod]
  have step3 : ((m + k) + ((p : Int) - k)) = m + (p : Int) * 1 := by ring
  rw [step1, step2, step3, Int.add_mul_emod_self_left]
  exact Int.emod_eq_of_lt h0 h1

/-- Round trip over lists: decrypting the elementwise encryption of a message
in range recovers the message, when the keystream lists coincide. -/
lemma zip_round_trip (p : Nat) :
    ∀ (ms ks : List Int), ms.length = ks.length →
      (∀ m ∈ ms, 0 ≤ m ∧ m < p) →
      List.zipWith (fun c prf => (c + (p : Int) - prf) % (p : Int))
        (List.zipWith (fun m prf => (m + prf) % (p : Int)) ms ks) ks = ms := by
  intro ms
  induction ms with
  | nil => intro ks _ _; simp
  | cons m t ih =>
    intro ks hlen hm
    cases ks with
    | nil => simp at hlen
    | cons k t₂ =>
      simp only [List.zipWith_cons_cons, List.cons.injEq]
      constructor
      · exact round_trip_elem p m k
          (hm m (List.mem_cons_self m t)).1 (hm m (List.mem_cons_self m t)).2
      · exact ih t₂ (by simpa using hlen)
          (fun v hv => hm v (List.mem_cons_of_mem _ hv))

/-! ### Claim theorems -/

/-- C2: for every byte input `x`, `evaluate` computes the PRF output by exactly
the spec's steps, in order: inner product of `hash_to_vector(x, 0)` with the
secret key, sign bit from `ip mod 2N ≥ N`, separate reduction `ip mod N`,
`rounded = floor(p * ip_mod_N / N)` by integer floor division, and `(p -
rounded) mod p` when the sign bit is set, `rounded mod p` otherwise, with the
final `mod p` in both branches. -/
theorem evaluate_follows_spec_pipeline (n N p : Nat) (s : List Nat)
    (shake : List Nat → Nat → List Nat) (x : List Nat) :
    evaluate n N p s shake x
      = evaluate_at_spec N p (npDotU64 (hash_to_vector n N shake x 0) s) := rfl

/-- C3: `hash_to_vector` absorbs the input bytes, then the 8-byte little-endian
slot index, draws `n * 8` bytes from the XOF, partitions them into `n`
consecutive 8-byte little-endian unsigned integers, and reduces each modulo
`2N`; the result has exactly `n` elements, each in `[0, 2N)`.  Stated for any
XOF that returns the requested number of output bytes. -/
theorem hash_to_vector_correct (n N : Nat) (shake : List Nat → Nat → List Nat)
    (x : List Nat) (index : Nat)
    (hshake : ∀ b k, (shake b k).length = k) (hN : 0 < N)
    (hidx : index < 2 ^ 64) :
    hash_to_vector n N shake x index = hash_to_vector_spec n N shake x index
      ∧ (hash_to_vector n N shake x index).length = n
      ∧ ∀ v ∈ hash_to_vector n N shake x index, v < 2 * N := by
  have hdig : (shake (x ++ toLEBytes 8 index) (n * 8)).length = 8 * n := by
    rw [hshake]; ring
  refine ⟨?_, ?_, ?_⟩
  · rw [hash_to_vector, hash_to_vector_spec, chunks8_eq_slices n _ hdig,
      List.map_map]
    rfl
  · simp [hash_to_vector]
  · intro v hv
    simp only [hash_to_vector, List.mem_map, List.mem_range] at hv
    obtain ⟨i, _, rfl⟩ := hv
    exact Nat.mod_lt _ (by positivity)

/-- C9: `hash_to_vector` is deterministic — two runs on identical input bytes
and identical slot index (with the same parameters and the same XOF) return
identical vectors; the output depends on nothing but the arguments. -/
theorem hash_to_vector_deterministic (n N : Nat)
    (shake : List Nat → Nat → List Nat) (x₁ x₂ : List Nat) (i₁ i₂ : Nat)
    (hx : x₁ = x₂) (hi : i₁ = i₂) :
    hash_to_vector n N shake x₁ i₁ = hash_to_vector n N shake x₂ i₂ := by
  subst hx; subst hi; rfl

/-- C6: on a hash vector with entries in `[0, 2N)` and a binary secret key,
the wrapping `uint64` dot product the PRF evaluation uses equals the exact
integer sum `Σ a[i] * s[i]`, provided the accumulator bound `n * (2N - 1)`
fits in 64 bits. -/
theorem inner_product_exact (n N : Nat) (a s : List Nat)
    (ha : ∀ v ∈ a, v < 2 * N) (hs : ∀ v ∈ s, v ≤ 1)
    (hlen : a.length = n) (hacc : n * (2 * N - 1) < 2 ^ 64) :
    npDotU64 a s = (List.zipWith (fun x y => x * y) a s).sum := by
  rw [npDotU64_eq_sum_mod]
  apply Nat.mod_eq_of_lt
  calc (List.zipWith (fun x y => x * y) a s).sum
      ≤ a.length * (2 * N - 1) := sum_zipWith_mul_le N a s ha hs
    _ = n * (2 * N - 1) := by rw [hlen]
    _ < 2 ^ 64 := hacc

/-- Every `evaluate` output is literally some integer reduced modulo `p`. -/
lemma evaluate_is_emod (n N p : Nat) (s : List Nat)
    (shake : List Nat → Nat → List Nat) (x : List Nat) :
    ∃ a : Int, evaluate n N p s shake x = a % (p : Int) := by
  simp only [evaluate]
  split
  · exact ⟨_, rfl⟩
  · exact ⟨_, rfl⟩

/-- Every element of an `evaluate_multiple` output list is literally some
integer reduced modulo `p`. -/
lemma evaluate_multiple_is_emod (n N p : Nat) (s : List Nat)
    (shake : List Nat → Nat → List Nat) (x : List Nat) (count : Nat) :
    ∀ r ∈ evaluate_multiple n N p s shake x count,
      ∃ a : Int, r = a % (p : Int) := by
  intro r hr
  simp only [evaluate_multiple, List.mem_map, List.mem_range] at hr
  obtain ⟨i, _, rfl⟩ := hr
  split
  · exact ⟨_, rfl⟩
  · exact ⟨_, rfl⟩

/-- C4: with a positive plaintext modulus, the PRF output of `evaluate` and
every position of `evaluate_multiple` lies in `[0, p)`, for any value of the
inner product — the final unconditional `mod p` normalizes every case. -/
theorem prf_output_range (n N p : Nat) (s : List Nat)
    (shake : List Nat → Nat → List Nat) (x : List Nat) (count : Nat)
    (hp : 0 < p) :
    (0 ≤ evaluate n N p s shake x ∧ evaluate n N p s shake x < p)
      ∧ ∀ r ∈ evaluate_multiple n N p s shake x count, 0 ≤ r ∧ r < p := by
  constructor
  · obtain ⟨a, ha⟩ := evaluate_is_emod n N p s shake x
    rw [ha]
    exact emod_p_range p hp a
  · intro r hr
    obtain ⟨a, ha⟩ := evaluate_multiple_is_emod n N p s shake x count r hr
    rw [ha]
    exact emod_p_range p hp a

/-- C5: element `i` of `evaluate_multiple x count` is the single-slot PRF
pipeline applied to `hash_to_vector(x, i)` and the secret key; position 0
coincides with `evaluate x`, and the sequence has length exactly `count`. -/
theorem evaluate_multiple_matches_single (n N p : Nat) (s : List Nat)
    (shake : List Nat → Nat → List Nat) (x : List Nat) (count i : Nat)
    (hi : i < count) :
    (evaluate_multiple n N p s shake x count).length = count
      ∧ (evaluate_multiple n N p s shake x count)[i]?
          = some (evaluate_at_spec N p (npDotU64 (hash_to_vector n N shake x i) s))
      ∧ (evaluate_multiple n N p s shake x count)[0]?
          = some (evaluate n N p s shake x) := by
  have h0 : 0 < count := Nat.lt_of_le_of_lt (Nat.zero_le i) hi
  refine ⟨evaluate_multiple_len n N p s shake x count, ?_, ?_⟩
  · simp only [evaluate_multiple, List.getElem?_map, List.getElem?_range, hi,
      if_true]
    rfl
  · simp only [evaluate_multiple, List.getElem?_map, List.getElem?_range, h0,
      if_true]
    rfl

/-- C1: decryption inverts encryption — for every nonce and every message with
elements in `[0, p)`, decrypting the ciphertext component produced by
`encrypt_message` under the same secret key returns the message. -/
theorem decrypt_encrypt_round_trip (n N p : Nat) (s : List Nat)
    (shake : List Nat → Nat → List Nat) (message : List Int) (nonce : List Nat)
    (hm : ∀ m ∈ message, 0 ≤ m ∧ m < p) :
    decrypt_message n N p s shake nonce
      (encrypt_message n N p s shake message nonce).2 = message := by
  simp only [encrypt_message, decrypt_message]
  rw [List.length_zipWith, evaluate_multiple_len, Nat.min_self]
  exact zip_round_trip p message _
    (evaluate_multiple_len n N p s shake nonce message.length).symm hm

/-- C8: the keystream generated inside `encrypt_message` and `decrypt_message`
always has exactly the length of the message (resp. ciphertext), so the
length-mismatch condition never arises, and both operations return a full
result of the input's length — never a silently truncated or partial one. -/
theorem no_truncated_transcipher_result (n N p : Nat) (s : List Nat)
    (shake : List Nat → Nat → List Nat) (message : List Int)
    (nonce : List Nat) (ciphertext : List Int) :
    (evaluate_multiple n N p s shake nonce message.length).length
        = message.length
      ∧ (encrypt_message n N p s shake message nonce).2.length = message.length
      ∧ (evaluate_multiple n N p s shake nonce ciphertext.length).length
          = ciphertext.length
      ∧ (decrypt_message n N p s shake nonce ciphertext).length
          = ciphertext.length := by
  refine ⟨evaluate_multiple_len n N p s shake nonce message.length, ?_,
    evaluate_multiple_len n N p s shake nonce ciphertext.length, ?_⟩
  · simp [encrypt_message, List.length_zipWith, evaluate_multiple_len]
  · simp [decrypt_message, List.length_zipWith, evaluate_multiple_len]

/-- C7: loading a persisted secret key fails exactly when the stored dimension
differs from the configured `n` or some stored element is not 0 or 1; the
dimension check comes first (a mismatch yields the dimension error regardless
of the data), and a successful load returns exactly the stored sequence. -/
theorem load_secret_key_correct (n : Nat) (kd : KeyData) :
    ((∃ e, _load_secret_key n kd = .error e)
        ↔ (kd.n_lwr ≠ n ∨ ∃ v ∈ kd.secret_key, v ≠ 0 ∧ v ≠ 1))
      ∧ (kd.n_lwr ≠ n →
          _load_secret_key n kd = .error (.dimensionMismatch n kd.n_lwr))
      ∧ (∀ s, _load_secret_key n kd = .ok s → s = kd.secret_key) := by
  have hall : kd.secret_key.all (fun v => v = 0 || v = 1) = true
      ↔ ∀ v ∈ kd.secret_key, v = 0 ∨ v = 1 := by
    simp [List.all_eq_true]
  by_cases h1 : kd.n_lwr = n
  · by_cases h2 : kd.secret_key.all (fun v => v = 0 || v = 1) = true
    · have hload : _load_secret_key n kd = .ok kd.secret_key := by
        simp only [_load_secret_key]
        rw [if_neg (by simp [h1]), if_pos h2]
      refine ⟨?_, fun hc => absurd h1 hc, ?_⟩
      · constructor
        · rintro ⟨e, he⟩
          rw [hload] at he
          cases he
        · rintro (hc | ⟨v, hv, hv0, hv1⟩)
          · exact absurd h1 hc
          · rcases hall.mp h2 v hv with h | h
            · exact absurd h hv0
            · exact absurd h hv1
      · intro s hs
        rw [hload] at hs
        cases hs
        rfl
    · have hload : _load_secret_key n kd = .error .invalidKeyData := by
        simp only [_load_secret_key]
        rw [if_neg (by simp [h1]), if_neg h2]
      refine ⟨?_, fun hc => absurd h1 hc, ?_⟩
      · constructor
        · intro _
          right
          rw [hall] at h2
          push_neg at h2
          obtain ⟨v, hv, hvne⟩ := h2
          exact ⟨v, hv, hvne⟩
        · intro _
          exact ⟨.invalidKeyData, hload⟩
      · intro s hs
        rw [hload] at hs
        cases hs
  · have hload : _load_secret_key n kd
        = .error (.dimensionMismatch n kd.n_lwr) := by
      simp only [_load_secret_key]
      rw [if_pos h1]
    refine ⟨⟨fun _ => Or.inl h1, fun _ => ⟨_, hload⟩⟩, fun _ => hload, ?_⟩
    intro s hs
    rw [hload] at hs
    cases hs

/-- C10: for arbitrary integer message (resp. ciphertext) elements and a
positive modulus `p`, `encrypt_message` and `decrypt_message` reduce every
element modulo `p` rather than rejecting it: every output element lies in
`[0, p)` and the output has the length of the input. -/
theorem transcipher_output_range (n N p : Nat) (s : List Nat)
    (shake : List Nat → Nat → List Nat) (message : List Int)
    (nonce : List Nat) (ciphertext : List Int) (hp : 0 < p) :
    (∀ y ∈ (encrypt_message n N p s shake message nonce).2, 0 ≤ y ∧ y < p)
      ∧ (encrypt_message n N p s shake message nonce).2.length = message.length
      ∧ (∀ y ∈ decrypt_message n N p s shake nonce ciphertext, 0 ≤ y ∧ y < p)
      ∧ (decrypt_message n N p s shake nonce ciphertext).length
          = ciphertext.length := by
  refine ⟨?_, ?_, ?_, ?_⟩
  · simp only [encrypt_message]
    exact forall_mem_zipWith _ _ (fun x y => emod_p_range p hp (x + y)) _ _
  · simp [encrypt_message, List.length_zipWith, evaluate_multiple_len]
  · simp only [decrypt_message]
    exact forall_mem_zipWith _ _ (fun x y => emod_p_range p hp (x + p - y)) _ _
  · simp [decrypt_message, List.length_zipWith, evaluate_multiple_len]

/-! ### Witnesses -/

/-- Witness for C1 at concrete parameters, key, message and nonce. -/
theorem decrypt_encrypt_round_trip_witness :
    decrypt_message 2 4 32 [1, 1] xofModel [7]
      (encrypt_message 2 4 32 [1, 1] xofModel [3, 5] [7]).2 = [3, 5] :=
  decrypt_encrypt_round_trip 2 4 32 [1, 1] xofModel [3, 5] [7] (by decide)

/-- Witness for C3 at concrete parameters, input and index, with the model
XOF. -/
theorem hash_to_vector_correct_witness :
    hash_to_vector 2 4 xofModel [1, 2] 3 = hash_to_vector_spec 2 4 xofModel [1, 2] 3
      ∧ (hash_to_vector 2 4 xofModel [1, 2] 3).length = 2
      ∧ ∀ v ∈ hash_to_vector 2 4 xofModel [1, 2] 3, v < 2 * 4 :=
  hash_to_vector_correct 2 4 xofModel [1, 2] 3
    (fun b k => by simp [xofModel]) (by decide) (by decide)

/-- Witness for C4 at concrete parameters and input. -/
theorem prf_output_range_witness :
    (0 ≤ evaluate 2 4 32 [1, 0] xofModel [9]
        ∧ evaluate 2 4 32 [1, 0] xofModel [9] < 32)
      ∧ ∀ r ∈ evaluate_multiple 2 4 32 [1, 0] xofModel [9] 3, 0 ≤ r ∧ r < 32 :=
  prf_output_range 2 4 32 [1, 0] xofModel [9] 3 (by decide)

/-- Witness for C5 at concrete parameters, input, count 3 and index 1. -/
theorem evaluate_multiple_matches_single_witness :
    (evaluate_multiple 2 4 32 [1, 0] xofModel [9] 3).length = 3
      ∧ (evaluate_multiple 2 4 32 [1, 0] xofModel [9] 3)[1]?
          = some (evaluate_at_spec 4 32 (npDotU64 (hash_to_vector 2 4 xofModel [9] 1) [1, 0]))
      ∧ (evaluate_multiple 2 4 32 [1, 0] xofModel [9] 3)[0]?
          = some (evaluate 2 4 32 [1, 0] xofModel [9]) :=
  evaluate_multiple_matches_single 2 4 32 [1, 0] xofModel [9] 3 1 (by decide)

/-- Witness for C6 at a concrete vector and key. -/
theorem inner_product_exact_witness :
    npDotU64 [3, 5] [1, 0] = (List.zipWith (fun x y => x * y) [3, 5] [1, 0]).sum :=
  inner_product_exact 2 4 [3, 5] [1, 0] (by decide) (by decide) (by decide)
    (by decide)

/-- Witness for C7 at a concrete well-formed key file. -/
theorem load_secret_key_correct_witness :
    ((∃ e, _load_secret_key 2 ⟨2, [0, 1]⟩ = .error e)
        ↔ ((2 : Nat) ≠ 2 ∨ ∃ v ∈ [(0 : Int), 1], v ≠ 0 ∧ v ≠ 1))
      ∧ ((2 : Nat) ≠ 2 →
          _load_secret_key 2 ⟨2, [0, 1]⟩ = .error (.dimensionMismatch 2 2))
      ∧ (∀ s, _load_secret_key 2 ⟨2, [0, 1]⟩ = .ok s → s = [0, 1]) :=
  load_secret_key_correct 2 ⟨2, [0, 1]⟩

/-- Witness for C9: a two-run equality at concrete arguments. -/
theorem hash_to_vector_deterministic_witness :
    hash_to_vector 2 4 xofModel [1, 2] 5 = hash_to_vector 2 4 xofModel [1, 2] 5 :=
  hash_to_vector_deterministic 2 4 xofModel [1, 2] [1, 2] 5 5 (by decide)
    (by decide)

/-- Witness for C10 with out-of-range message elements. -/
theorem transcipher_output_range_witness :
    (∀ y ∈ (encrypt_message 2 4 32 [1, 1] xofModel [-5, 40] [7]).2,
        0 ≤ y ∧ y < 32)
      ∧ (encrypt_message 2 4 32 [1, 1] xofModel [-5, 40] [7]).2.length = 2
      ∧ (∀ y ∈ decrypt_message 2 4 32 [1, 1] xofModel [7] [100], 0 ≤ y ∧ y < 32)
      ∧ (decrypt_message 2 4 32 [1, 1] xofModel [7] [100]).length = 1 :=
  transcipher_output_range 2 4 32 [1, 1] xofModel [-5, 40] [7] [100] (by decide)

end LWRPRF
